import Mathlib

/-!
# Verification of the yapper pairing core

Shallow embedding of the yapper repository (package `yapper` in `yapper.go`
and package `history`).  Go maps are modelled as association lists: the list
order stands for one possible iteration order of the Go map (Go map
iteration order is unspecified), and map keys are unique by construction of
the update operations.  Go `time.Time` is modelled as an integer day index
(days since 1970-01-01); `Before` is `<`, `AddDate(0, 0, 7)` is `+ 7`, and
`ISOWeek` is computed from the day index by the standard proleptic-Gregorian
ISO-8601 algorithm (mirroring the Go standard library).  Fallible paths that
`log.Fatalf` in Go are modelled with `Option`: `none` is process abort.
-/

/-! ## Basic types (`yapper.go`, `history` package) -/

/-- `type ID string` (both `yapper.ID` and `history.ID`; the Go conversions
between them are identity on the underlying string). -/
abbrev ID := String

/-- `time.Time`, modelled as days since 1970-01-01. -/
abbrev Time := Int

/-- `type Cadence string`. -/
abbrev Cadence := String

/-- `CadenceOneWeek Cadence = "one-week"`. -/
def CadenceOneWeek : Cadence := "one-week"

/-- `CadenceTwoWeeks Cadence = "two-weeks"`. -/
def CadenceTwoWeeks : Cadence := "two-weeks"

/-- `type Person struct { ID ID; DenyList []ID; Cadence Cadence; Squad string }`. -/
structure Person where
  id : ID
  denyList : List ID
  cadence : Cadence
  squad : String
deriving DecidableEq, Repr

/-- `type Config struct { People []Person }`. -/
structure Config where
  people : List Person
deriving DecidableEq, Repr

/-- `Config.GetPerson`: `slices.IndexFunc` over `c.People` for the first
person with the given ID; the Go error case is `none`. -/
def Config.GetPerson (c : Config) (i : ID) : Option Person :=
  c.people.find? (fun p => decide (p.id = i))

/-- `Config.validate` succeeds iff all IDs are unique (the Go method walks
the people recording seen IDs in a set and errors on a repeat). -/
def Config.uniqueIDs (c : Config) : Prop :=
  (c.people.map Person.id).Nodup

instance (c : Config) : Decidable c.uniqueIDs := by
  unfold Config.uniqueIDs; infer_instance

/-! ## ISO week (Go standard library `time.Time.ISOWeek`)

Computed from the day index with the standard civil-calendar algorithm:
the ISO week of a date is determined by the Thursday of its Mon–Sun week. -/

/-- Gregorian calendar year containing the given day index. -/
def civilYearFromDays (z0 : Int) : Int :=
  let z := z0 + 719468
  let era := Int.fdiv z 146097
  let doe := z - era * 146097
  let yoe := Int.fdiv (doe - Int.fdiv doe 1460 + Int.fdiv doe 36524 - Int.fdiv doe 146096) 365
  let y := yoe + era * 400
  let doy := doe - (365 * yoe + Int.fdiv yoe 4 - Int.fdiv yoe 100)
  let mp := Int.fdiv (5 * doy + 2) 153
  let m := mp + (if mp < 10 then 3 else -9)
  if m ≤ 2 then y + 1 else y

/-- Day index of January 1st of the given Gregorian year. -/
def daysFromCivilJan1 (y0 : Int) : Int :=
  let y := y0 - 1
  let era := Int.fdiv y 400
  let yoe := y - era * 400
  let doy : Int := 306
  let doe := yoe * 365 + Int.fdiv yoe 4 - Int.fdiv yoe 100 + doy
  era * 146097 + doe - 719468

/-- The ISO-8601 week number (1–53) of the given day index, as returned in
the second component of Go's `time.Time.ISOWeek`. -/
def isoWeek (z : Int) : Int :=
  let wd := Int.emod (z + 3) 7 + 1
  let thu := z + 4 - wd
  let y := civilYearFromDays thu
  let jan1 := daysFromCivilJan1 y
  Int.fdiv (thu - jan1) 7 + 1

/-- `isValidWeekForTwoWeekCadence`: the ISO week number of the date is even. -/
def isValidWeekForTwoWeekCadence (date : Time) : Bool :=
  isoWeek date % 2 == 0

/-! ## Association-list model of Go maps -/

/-- Lookup in a Go map modelled as an association list: `m[k]` with its
`ok` flag (`none` = key absent). -/
def getA {β : Type} : List (ID × β) → ID → Option β
  | [], _ => none
  | (k, v) :: rest, a => if k = a then some v else getA rest a

/-- Store `m[k] = v` in a Go map modelled as an association list: replace
the value in place if the key exists, else add the key (new keys appear at
the end, one admissible iteration order for the grown map). -/
def setA {β : Type} : List (ID × β) → ID → β → List (ID × β)
  | [], k, v => [(k, v)]
  | (k1, v1) :: rest, k, v =>
      if k1 = k then (k1, v) :: rest else (k1, v1) :: setA rest k v

/-- `m[k] = append(m[k], v)` on a Go map of slices (`append` to the `nil`
slice of an absent key creates the entry). -/
def mapAppend (m : List (ID × List ID)) (k v : ID) : List (ID × List ID) :=
  match m with
  | [] => [(k, [v])]
  | (k1, l) :: rest =>
      if k1 = k then (k1, l ++ [v]) :: rest else (k1, l) :: mapAppend rest k v

/-- The slice stored under a key, `nil` (= `[]`) when absent — exactly what
ranging over `m[k]` or appending to it sees in Go. -/
def entryVals (m : List (ID × List ID)) (k : ID) : List ID :=
  (getA m k).getD []

/-! ## History store (`history` package) -/

/-- `type History struct { data map[ID]map[ID]time.Time }`.  The inner maps
are also association lists; both levels have unique keys for every store
reachable through the package's operations. -/
structure History where
  data : List (ID × List (ID × Time))
deriving DecidableEq, Repr

/-- The Go-map well-formedness invariant: unique keys at both levels. -/
def History.WF (h : History) : Prop :=
  (h.data.map Prod.fst).Nodup ∧ ∀ e ∈ h.data, (e.2.map Prod.fst).Nodup

instance (h : History) : Decidable h.WF := by
  unfold History.WF
  infer_instance

/-- `History.addMeetingToPersonsHistory`: fetch (or freshly make) the
person's inner map, store the meeting time under the other person, store
the inner map back. -/
def History.addMeetingToPersonsHistory (h : History) (person otherPerson : ID)
    (meetingTime : Time) : History :=
  let personHistory := (getA h.data person).getD []
  ⟨setA h.data person (setA personHistory otherPerson meetingTime)⟩

/-- `History.AddMeeting`: record the meeting in both directions.  (The Go
`nil`-map guard corresponds to the empty association list.) -/
def History.AddMeeting (h : History) (person1 person2 : ID) (meetingTime : Time) : History :=
  (h.addMeetingToPersonsHistory person1 person2 meetingTime).addMeetingToPersonsHistory
    person2 person1 meetingTime

/-- `History.GetPersonToLastMeetingMap`: the person's inner map, `nil`
(= `[]`) when the person is unknown. -/
def History.GetPersonToLastMeetingMap (h : History) (person : ID) : List (ID × Time) :=
  (getA h.data person).getD []

/-- The loop body of `GetPeopleMetSortedByLastMeeting`: insert a person
before the first already-sorted person whose last meeting is strictly
later (`meetingTime.Before(peopleToTime[sortedPerson])`).  The inner map
has unique keys, so `peopleToTime[sortedPerson]` is the timestamp carried
here alongside each ID. -/
def insertByTime (p : ID × Time) : List (ID × Time) → List (ID × Time)
  | [] => [p]
  | q :: rest => if p.2 < q.2 then p :: q :: rest else q :: insertByTime p rest

/-- `history.GetPeopleMetSortedByLastMeeting`: people the person has met,
oldest last meeting first.  The fold runs over the inner map in its
iteration order. -/
def GetPeopleMetSortedByLastMeeting (hist : History) (person : ID) : List ID :=
  ((hist.GetPersonToLastMeetingMap person).foldl
    (fun sorted pt => insertByTime pt sorted) []).map Prod.fst

/-! ## Matcher (`yapper.go`) -/

/-- `slices.Contains`. -/
def containsID (l : List ID) (x : ID) : Bool :=
  decide (x ∈ l)

/-- The pair-validity test of `determineValidPairings`: both `continue`
conditions of the inner loop, negated. -/
def validPair (person potentialPair : Person) : Bool :=
  if person.id = potentialPair.id ∨ potentialPair.id ∈ person.denyList ∨
      person.id ∈ potentialPair.denyList then
    false
  else if person.squad ≠ "" ∧ person.squad = potentialPair.squad then
    false
  else
    true

/-- `determineValidPairings`: for every ordered pair of people passing the
checks, append the partner to the person's entry of the map. -/
def determineValidPairings (config : Config) : List (ID × List ID) :=
  config.people.foldl
    (fun m person =>
      config.people.foldl
        (fun m potentialPair =>
          if validPair person potentialPair then
            mapAppend m person.id potentialPair.id
          else m)
        m)
    []

/-- `getPeopleNotMetBefore`: the valid partners absent from the previous
meetings, in valid-partner order. -/
def getPeopleNotMetBefore (validPairings : List ID) (previousPairings : List ID) : List ID :=
  validPairings.filter (fun i => !containsID previousPairings i)

/-- `getOrderedPossiblePairings`: unmet valid partners first, then the
previously met people (oldest meeting first) that are valid partners. -/
def getOrderedPossiblePairings (i : ID) (validPairings : List ID) (hist : History) : List ID :=
  let previousMeetingsOldestFirst := GetPeopleMetSortedByLastMeeting hist i
  let unmetPeople := getPeopleNotMetBefore validPairings previousMeetingsOldestFirst
  unmetPeople ++ previousMeetingsOldestFirst.filter (fun prevID => containsID validPairings prevID)

/-- The cadence switch of `getIneligiblePeople` over the graph's keys in
iteration order; `none` models the two `log.Fatalf` aborts (unknown ID,
unexpected cadence). -/
def getIneligibleAux (conf : Config) (twoWeekValid : Bool) : List ID → Option (List ID)
  | [] => some []
  | i :: rest =>
    match conf.GetPerson i with
    | none => none
    | some person =>
      if person.cadence = CadenceOneWeek ∨ person.cadence = "" then
        getIneligibleAux conf twoWeekValid rest
      else if person.cadence = CadenceTwoWeeks then
        match getIneligibleAux conf twoWeekValid rest with
        | none => none
        | some l => some (if twoWeekValid then l else i :: l)
      else none

/-- `getIneligiblePeople`: the people who cannot meet this week. -/
def getIneligiblePeople (conf : Config) (idToValidPairings : List (ID × List ID))
    (date : Time) : Option (List ID) :=
  getIneligibleAux conf (isValidWeekForTwoWeekCadence date) (idToValidPairings.map Prod.fst)

/-- The inner loop of `pairPeople`: the first candidate not already
claimed, if any. -/
def findPartner (alreadyPaired : List ID) : List ID → Option ID
  | [] => none
  | c :: rest => if containsID alreadyPaired c then findPartner alreadyPaired rest else some c

/-- The main loop of `pairPeople` over the graph entries in iteration
order, threading the `alreadyPaired` slice. -/
def pairPeopleAux (hist : History) :
    List (ID × List ID) → List ID → List (ID × ID)
  | [], _ => []
  | (i, validPairings) :: rest, alreadyPaired =>
    if containsID alreadyPaired i then
      pairPeopleAux hist rest alreadyPaired
    else
      match findPartner alreadyPaired (getOrderedPossiblePairings i validPairings hist) with
      | none => pairPeopleAux hist rest alreadyPaired
      | some pair => (i, pair) :: pairPeopleAux hist rest (alreadyPaired ++ [i, pair])

/-- `pairPeople`: seed the claimed set with the ineligible people, then
greedily pair. `none` models a `log.Fatalf` abort inside
`getIneligiblePeople`. -/
def pairPeople (conf : Config) (idToValidPairings : List (ID × List ID))
    (hist : History) (date : Time) : Option (List (ID × ID)) :=
  match getIneligiblePeople conf idToValidPairings date with
  | none => none
  | some alreadyPaired => some (pairPeopleAux hist idToValidPairings alreadyPaired)

/-! ## Orchestrator (`GeneratePairings`) -/

/-- `Pairings`: the ordered slice of ID pairs built by `Pairings.Add`. -/
abbrev Pairings := List (ID × ID)

/-- Feed one week's pairings into the history at the given date, in
pairing order. -/
def feedWeek (h : History) (d : Time) (ps : Pairings) : History :=
  ps.foldl (fun acc pr => acc.AddMeeting pr.1 pr.2 d) h

/-- The week loop of `GeneratePairings`. -/
def generateLoop (config : Config) (graph : List (ID × List ID)) :
    Nat → History → Time → Option (List Pairings × History)
  | 0, h, _ => some ([], h)
  | Nat.succ n, h, d =>
    match pairPeople config graph h d with
    | none => none
    | some ps =>
      match generateLoop config graph n (feedWeek h d ps) (d + 7) with
      | none => none
      | some (rest, fin) => some (ps :: rest, fin)

/-- `GeneratePairings`: build the valid-pair graph once, then run the week
loop starting from the current date (`time.Now()` is the `now` input).
Returns the weekly pairings and the final history (the Go function mutates
the history in place). -/
def GeneratePairings (config : Config) (hist : History) (now : Time)
    (weeks : Nat) : Option (List Pairings × History) :=
  generateLoop config (determineValidPairings config) weeks hist now

/-- The history after the first several weeks of an orchestrator run:
fold each week's pairings in at its date, advancing seven days a week. -/
def histThrough (h : History) (d : Time) : List Pairings → History
  | [] => h
  | ps :: rest => histThrough (feedWeek h d ps) (d + 7) rest

/-! ## Derived definitions used by the statements and proofs -/

/-- The stored last-meeting timestamp of the ordered pair (x, y):
`PartnersOf(x)[y]` in the spec's terms. -/
def getPair (h : History) (x y : ID) : Option Time :=
  getA (h.GetPersonToLastMeetingMap x) y

/-- The sorted (person, last-meeting) pairs underlying
`GetPeopleMetSortedByLastMeeting`. -/
def metSortedPairs (hist : History) (person : ID) : List (ID × Time) :=
  (hist.GetPersonToLastMeetingMap person).foldl (fun s pt => insertByTime pt s) []

/-- The inner loop of `determineValidPairings` for one person. -/
def appendValidPartners (person : Person) (qs : List Person)
    (m : List (ID × List ID)) : List (ID × List ID) :=
  qs.foldl
    (fun m potentialPair =>
      if validPair person potentialPair then mapAppend m person.id potentialPair.id else m)
    m

/-- The outer loop of `determineValidPairings` over an explicit person list. -/
def buildValidPairings (qs ps : List Person) (m : List (ID × List ID)) :
    List (ID × List ID) :=
  ps.foldl (fun m person => appendValidPartners person qs m) m

/-- The valid-partner slice of a given ID in the graph built by
`determineValidPairings` (empty if the ID is not a key). -/
def graphVals (config : Config) (a : ID) : List ID :=
  entryVals (determineValidPairings config) a

/-- All identifier occurrences in a pairing list, in order (the Go
`Pairings.All` iteration flattened). -/
def allIDs : List (ID × ID) → List ID
  | [] => []
  | pr :: rest => pr.1 :: pr.2 :: allIDs rest

/-- A two-person roster with no constraints, used to instantiate theorems
on a concrete input. -/
def exampleConfig2 : Config :=
  ⟨[⟨"a", [], "", ""⟩, ⟨"b", [], "", ""⟩]⟩

/-- A three-person roster with no constraints (all three mutually valid). -/
def exampleConfig3 : Config :=
  ⟨[⟨"a", [], "", ""⟩, ⟨"b", [], "", ""⟩, ⟨"c", [], "", ""⟩]⟩

/-- A two-person roster with one weekly and one biweekly member. -/
def exampleConfigCad : Config :=
  ⟨[⟨"a", [], "one-week", ""⟩, ⟨"b", [], "two-weeks", ""⟩]⟩

/-! ## Association-list lemmas -/

theorem getA_setA_same {β : Type} (m : List (ID × β)) (k : ID) (v : β) :
    getA (setA m k v) k = some v := by
  induction m with
  | nil => simp [setA, getA]
  | cons e rest ih =>
    obtain ⟨k1, v1⟩ := e
    by_cases h : k1 = k
    · simp [setA, h, getA]
    · simp [setA, h, getA, ih]

theorem getA_setA_ne {β : Type} (m : List (ID × β)) (k a : ID) (v : β) (hne : a ≠ k) :
    getA (setA m k v) a = getA m a := by
  induction m with
  | nil =>
    simp [setA, getA]
    intro h
    exact absurd h.symm hne
  | cons e rest ih =>
    obtain ⟨k1, v1⟩ := e
    by_cases h : k1 = k
    · subst h
      have : k1 ≠ a := fun hc => hne hc.symm
      simp [setA, getA, this]
    · by_cases h2 : k1 = a
      · subst h2
        simp [setA, h, getA]
      · simp [setA, h, getA, h2, ih]

theorem getA_eq_none_iff {β : Type} (m : List (ID × β)) (a : ID) :
    getA m a = none ↔ a ∉ m.map Prod.fst := by
  induction m with
  | nil => simp [getA]
  | cons e rest ih =>
    obtain ⟨k1, v1⟩ := e
    by_cases h : k1 = a
    · simp [getA, h]
    · simp only [getA, if_neg h, ih, List.map_cons, List.mem_cons]
      constructor
      · intro hm
        rintro (hc | hc)
        · exact h hc.symm
        · exact hm hc
      · intro hm
        exact fun hc => hm (Or.inr hc)

theorem getA_mem {β : Type} (m : List (ID × β)) (a : ID) (l : β) :
    getA m a = some l → (a, l) ∈ m := by
  induction m with
  | nil => simp [getA]
  | cons e rest ih =>
    obtain ⟨k1, v1⟩ := e
    simp only [getA]
    split
    next h =>
      intro hv
      rw [Option.some_inj] at hv
      subst h
      subst hv
      exact List.mem_cons_self _ _
    next h =>
      intro hv
      exact List.mem_cons_of_mem _ (ih hv)

theorem mem_getA_of_nodup {β : Type} (m : List (ID × β)) (a : ID) (l : β)
    (hnd : (m.map Prod.fst).Nodup) (hmem : (a, l) ∈ m) : getA m a = some l := by
  induction m with
  | nil => simp at hmem
  | cons e rest ih =>
    obtain ⟨k1, v1⟩ := e
    rcases List.mem_cons.mp hmem with heq | htail
    · obtain ⟨h1, h2⟩ := Prod.mk.injEq .. ▸ heq.symm
      simp [getA, h1, h2]
    · have hk1 : k1 ≠ a := by
        intro hc
        subst hc
        have : k1 ∈ rest.map Prod.fst :=
          List.mem_map.mpr ⟨(k1, l), htail, rfl⟩
        exact (List.nodup_cons.mp hnd).1 this
      simp only [getA, if_neg hk1]
      exact ih (List.nodup_cons.mp hnd).2 htail

theorem getA_mapAppend_same (m : List (ID × List ID)) (k v : ID) :
    getA (mapAppend m k v) k = some ((getA m k).getD [] ++ [v]) := by
  induction m with
  | nil => simp [mapAppend, getA]
  | cons e rest ih =>
    obtain ⟨k1, l⟩ := e
    by_cases h : k1 = k
    · simp [mapAppend, h, getA]
    · simp [mapAppend, h, getA, ih]

theorem getA_mapAppend_ne (m : List (ID × List ID)) (k a v : ID) (hne : a ≠ k) :
    getA (mapAppend m k v) a = getA m a := by
  induction m with
  | nil =>
    simp [mapAppend, getA]
    intro h
    exact absurd h.symm hne
  | cons e rest ih =>
    obtain ⟨k1, l⟩ := e
    by_cases h : k1 = k
    · subst h
      have : k1 ≠ a := fun hc => hne hc.symm
      simp [mapAppend, getA, this]
    · by_cases h2 : k1 = a
      · subst h2
        simp [mapAppend, h, getA]
      · simp [mapAppend, h, getA, h2, ih]

theorem entryVals_mapAppend_same (m : List (ID × List ID)) (k v : ID) :
    entryVals (mapAppend m k v) k = entryVals m k ++ [v] := by
  simp [entryVals, getA_mapAppend_same]

theorem entryVals_mapAppend_ne (m : List (ID × List ID)) (k a v : ID) (hne : a ≠ k) :
    entryVals (mapAppend m k v) a = entryVals m a := by
  simp [entryVals, getA_mapAppend_ne m k a v hne]

theorem mapAppend_keys_of_mem (m : List (ID × List ID)) (k v : ID)
    (h : k ∈ m.map Prod.fst) :
    (mapAppend m k v).map Prod.fst = m.map Prod.fst := by
  induction m with
  | nil => simp at h
  | cons e rest ih =>
    obtain ⟨k1, l⟩ := e
    by_cases hk : k1 = k
    · simp [mapAppend, hk]
    · have : k ∈ rest.map Prod.fst := by
        rcases List.mem_cons.mp h with h1 | h1
        · exact absurd h1.symm hk
        · exact h1
      simp [mapAppend, hk, ih this]

theorem mapAppend_keys_of_not_mem (m : List (ID × List ID)) (k v : ID)
    (h : k ∉ m.map Prod.fst) :
    (mapAppend m k v).map Prod.fst = m.map Prod.fst ++ [k] := by
  induction m with
  | nil => simp [mapAppend]
  | cons e rest ih =>
    obtain ⟨k1, l⟩ := e
    have hk : k1 ≠ k := by
      intro hc
      exact h (by simp [hc])
    have : k ∉ rest.map Prod.fst := fun hc => h (by simp [hc])
    simp [mapAppend, hk, ih this]

theorem mapAppend_keysNodup (m : List (ID × List ID)) (k v : ID)
    (h : (m.map Prod.fst).Nodup) : ((mapAppend m k v).map Prod.fst).Nodup := by
  by_cases hk : k ∈ m.map Prod.fst
  · rw [mapAppend_keys_of_mem m k v hk]
    exact h
  · rw [mapAppend_keys_of_not_mem m k v hk]
    simp [List.nodup_append, h, hk]

theorem mapAppend_keys_sub (m : List (ID × List ID)) (k v a : ID)
    (h : a ∈ (mapAppend m k v).map Prod.fst) : a ∈ m.map Prod.fst ∨ a = k := by
  by_cases hk : k ∈ m.map Prod.fst
  · rw [mapAppend_keys_of_mem m k v hk] at h
    exact Or.inl h
  · rw [mapAppend_keys_of_not_mem m k v hk] at h
    rcases List.mem_append.mp h with h1 | h1
    · exact Or.inl h1
    · exact Or.inr (by simpa using h1)

/-! ## Insertion-sort lemmas for `GetPeopleMetSortedByLastMeeting` -/

theorem insertByTime_perm (p : ID × Time) (l : List (ID × Time)) :
    (insertByTime p l).Perm (p :: l) := by
  induction l with
  | nil => simp [insertByTime]
  | cons q rest ih =>
    by_cases h : p.2 < q.2
    · simp [insertByTime, h]
    · simp only [insertByTime, if_neg h]
      exact (ih.cons q).trans (List.Perm.swap p q rest)

theorem insertByTime_sorted (p : ID × Time) (l : List (ID × Time))
    (hs : l.Pairwise (fun x y => x.2 ≤ y.2)) :
    (insertByTime p l).Pairwise (fun x y => x.2 ≤ y.2) := by
  induction l with
  | nil => simp [insertByTime]
  | cons q rest ih =>
    rcases List.pairwise_cons.mp hs with ⟨hq, hrest⟩
    by_cases h : p.2 < q.2
    · simp only [insertByTime, if_pos h]
      refine List.pairwise_cons.mpr ⟨?_, hs⟩
      intro x hx
      rcases List.mem_cons.mp hx with rfl | hx
      · exact le_of_lt h
      · exact le_trans (le_of_lt h) (hq x hx)
    · simp only [insertByTime, if_neg h]
      refine List.pairwise_cons.mpr ⟨?_, ih hrest⟩
      intro x hx
      rcases List.mem_cons.mp ((insertByTime_perm p rest).mem_iff.mp hx) with rfl | hx2
      · exact le_of_not_lt h
      · exact hq x hx2

theorem foldl_insertByTime_perm (l acc : List (ID × Time)) :
    (l.foldl (fun s pt => insertByTime pt s) acc).Perm (acc ++ l) := by
  induction l generalizing acc with
  | nil => simp
  | cons p rest ih =>
    simp only [List.foldl_cons]
    refine (ih (insertByTime p acc)).trans ?_
    refine (((insertByTime_perm p acc).append_right rest)).trans ?_
    exact List.perm_middle.symm

theorem foldl_insertByTime_sorted (l acc : List (ID × Time))
    (hacc : acc.Pairwise (fun x y => x.2 ≤ y.2)) :
    (l.foldl (fun s pt => insertByTime pt s) acc).Pairwise (fun x y => x.2 ≤ y.2) := by
  induction l generalizing acc with
  | nil => simpa
  | cons p rest ih =>
    simp only [List.foldl_cons]
    exact ih _ (insertByTime_sorted p acc hacc)

theorem getPeopleMet_eq_map (hist : History) (person : ID) :
    GetPeopleMetSortedByLastMeeting hist person = (metSortedPairs hist person).map Prod.fst := rfl

theorem metSortedPairs_perm (hist : History) (person : ID) :
    (metSortedPairs hist person).Perm (hist.GetPersonToLastMeetingMap person) := by
  simpa using foldl_insertByTime_perm (hist.GetPersonToLastMeetingMap person) []

theorem metSortedPairs_sorted (hist : History) (person : ID) :
    (metSortedPairs hist person).Pairwise (fun x y => x.2 ≤ y.2) := by
  exact foldl_insertByTime_sorted _ [] (by simp)

theorem mem_getPeopleMet (hist : History) (person x : ID) :
    x ∈ GetPeopleMetSortedByLastMeeting hist person ↔
      x ∈ (hist.GetPersonToLastMeetingMap person).map Prod.fst := by
  rw [getPeopleMet_eq_map]
  exact ((metSortedPairs_perm hist person).map Prod.fst).mem_iff

/-! ## The valid-pair graph fold -/

theorem determineValidPairings_eq (config : Config) :
    determineValidPairings config = buildValidPairings config.people config.people [] := rfl

theorem appendValidPartners_entry_self (person : Person) (qs : List Person)
    (m : List (ID × List ID)) :
    entryVals (appendValidPartners person qs m) person.id
      = entryVals m person.id ++ (qs.filter (fun q => validPair person q)).map Person.id := by
  induction qs generalizing m with
  | nil => simp [appendValidPartners]
  | cons q rest ih =>
    have step : appendValidPartners person (q :: rest) m
        = appendValidPartners person rest
            (if validPair person q then mapAppend m person.id q.id else m) := rfl
    rw [step]
    by_cases h : validPair person q
    · rw [if_pos h, ih, entryVals_mapAppend_same]
      simp [h]
    · rw [if_neg h, ih]
      simp [h]

theorem appendValidPartners_entry_ne (person : Person) (qs : List Person)
    (m : List (ID × List ID)) (a : ID) (hne : a ≠ person.id) :
    entryVals (appendValidPartners person qs m) a = entryVals m a := by
  induction qs generalizing m with
  | nil => simp [appendValidPartners]
  | cons q rest ih =>
    have step : appendValidPartners person (q :: rest) m
        = appendValidPartners person rest
            (if validPair person q then mapAppend m person.id q.id else m) := rfl
    rw [step]
    by_cases h : validPair person q
    · rw [if_pos h, ih, entryVals_mapAppend_ne m person.id a q.id hne]
    · rw [if_neg h, ih]

theorem appendValidPartners_keys_sub (person : Person) (qs : List Person)
    (m : List (ID × List ID)) (a : ID)
    (h : a ∈ (appendValidPartners person qs m).map Prod.fst) :
    a ∈ m.map Prod.fst ∨ a = person.id := by
  induction qs generalizing m with
  | nil => exact Or.inl h
  | cons q rest ih =>
    have step : appendValidPartners person (q :: rest) m
        = appendValidPartners person rest
            (if validPair person q then mapAppend m person.id q.id else m) := rfl
    rw [step] at h
    by_cases hv : validPair person q
    · rw [if_pos hv] at h
      rcases ih _ h with h1 | h1
      · exact mapAppend_keys_sub m person.id q.id a h1
      · exact Or.inr h1
    · rw [if_neg hv] at h
      exact ih _ h

theorem appendValidPartners_keysNodup (person : Person) (qs : List Person)
    (m : List (ID × List ID)) (h : (m.map Prod.fst).Nodup) :
    ((appendValidPartners person qs m).map Prod.fst).Nodup := by
  induction qs generalizing m with
  | nil => exact h
  | cons q rest ih =>
    have step : appendValidPartners person (q :: rest) m
        = appendValidPartners person rest
            (if validPair person q then mapAppend m person.id q.id else m) := rfl
    rw [step]
    by_cases hv : validPair person q
    · rw [if_pos hv]
      exact ih _ (mapAppend_keysNodup m person.id q.id h)
    · rw [if_neg hv]
      exact ih _ h

theorem buildValidPairings_entry (qs ps : List Person) (m : List (ID × List ID)) (a : ID) :
    entryVals (buildValidPairings qs ps m) a
      = entryVals m a
        ++ (ps.filter (fun p => decide (p.id = a))).flatMap
            (fun p => (qs.filter (fun q => validPair p q)).map Person.id) := by
  induction ps generalizing m with
  | nil => simp [buildValidPairings]
  | cons p rest ih =>
    have step : buildValidPairings qs (p :: rest) m
        = buildValidPairings qs rest (appendValidPartners p qs m) := rfl
    rw [step, ih]
    by_cases h : p.id = a
    · rw [← h, appendValidPartners_entry_self]
      simp [List.filter_cons, h, List.append_assoc]
    · rw [appendValidPartners_entry_ne p qs m a (fun hc => h hc.symm)]
      simp [List.filter_cons, h]

theorem buildValidPairings_keysNodup (qs ps : List Person) (m : List (ID × List ID))
    (h : (m.map Prod.fst).Nodup) : ((buildValidPairings qs ps m).map Prod.fst).Nodup := by
  induction ps generalizing m with
  | nil => exact h
  | cons p rest ih =>
    exact ih _ (appendValidPartners_keysNodup p qs m h)

theorem buildValidPairings_keys_sub (qs ps : List Person) (m : List (ID × List ID)) (a : ID)
    (h : a ∈ (buildValidPairings qs ps m).map Prod.fst) :
    a ∈ m.map Prod.fst ∨ ∃ p ∈ ps, p.id = a := by
  induction ps generalizing m with
  | nil => exact Or.inl h
  | cons p rest ih =>
    have step : buildValidPairings qs (p :: rest) m
        = buildValidPairings qs rest (appendValidPartners p qs m) := rfl
    rw [step] at h
    rcases ih _ h with h1 | h1
    · rcases appendValidPartners_keys_sub p qs m a h1 with h2 | h2
      · exact Or.inl h2
      · exact Or.inr ⟨p, List.mem_cons_self p rest, h2.symm⟩
    · rcases h1 with ⟨q, hq, hqa⟩
      exact Or.inr ⟨q, List.mem_cons_of_mem p hq, hqa⟩

theorem graphVals_eq (config : Config) (a : ID) :
    graphVals config a
      = (config.people.filter (fun p => decide (p.id = a))).flatMap
          (fun p => (config.people.filter (fun q => validPair p q)).map Person.id) := by
  unfold graphVals
  rw [determineValidPairings_eq, buildValidPairings_entry]
  simp [entryVals, getA]

theorem mem_graphVals (config : Config) (a b : ID) :
    b ∈ graphVals config a ↔
      ∃ p ∈ config.people, p.id = a ∧ ∃ q ∈ config.people, validPair p q = true ∧ q.id = b := by
  rw [graphVals_eq]
  simp only [List.mem_flatMap, List.mem_filter, List.mem_map, decide_eq_true_eq]
  constructor
  · rintro ⟨p, ⟨hp, hpa⟩, q, ⟨hq, hv⟩, hqb⟩
    exact ⟨p, hp, hpa, q, hq, hv, hqb⟩
  · rintro ⟨p, hp, hpa, q, hq, hv, hqb⟩
    exact ⟨p, ⟨hp, hpa⟩, q, ⟨hq, hv⟩, hqb⟩

theorem determineValidPairings_keysNodup (config : Config) :
    ((determineValidPairings config).map Prod.fst).Nodup := by
  rw [determineValidPairings_eq]
  exact buildValidPairings_keysNodup _ _ [] (by simp)

theorem determineValidPairings_keys_sub (config : Config) (a : ID)
    (h : a ∈ (determineValidPairings config).map Prod.fst) :
    ∃ p ∈ config.people, p.id = a := by
  rw [determineValidPairings_eq] at h
  rcases buildValidPairings_keys_sub _ _ [] a h with h1 | h1
  · simp at h1
  · exact h1

theorem graph_entry_eq (config : Config) (a : ID) (l : List ID)
    (h : (a, l) ∈ determineValidPairings config) : l = graphVals config a := by
  have := mem_getA_of_nodup _ a l (determineValidPairings_keysNodup config) h
  unfold graphVals entryVals
  rw [this]
  rfl

theorem entryVals_ne_nil_key (m : List (ID × List ID)) (a : ID)
    (h : entryVals m a ≠ []) : a ∈ m.map Prod.fst := by
  by_contra hc
  have := (getA_eq_none_iff m a).mpr hc
  unfold entryVals at h
  rw [this] at h
  exact h rfl

/-! ## `validPair` characterization and symmetry -/

theorem validPair_iff (p q : Person) :
    validPair p q = true ↔
      p.id ≠ q.id ∧ q.id ∉ p.denyList ∧ p.id ∉ q.denyList ∧
        ¬(p.squad ≠ "" ∧ p.squad = q.squad) := by
  unfold validPair
  by_cases h1 : p.id = q.id ∨ q.id ∈ p.denyList ∨ p.id ∈ q.denyList
  · simp only [if_pos h1]
    simp only [Bool.false_eq_true, false_iff]
    rintro ⟨hne, hq, hp, _⟩
    rcases h1 with h | h | h
    · exact hne h
    · exact hq h
    · exact hp h
  · by_cases h2 : p.squad ≠ "" ∧ p.squad = q.squad
    · simp only [if_neg h1, if_pos h2]
      simp only [Bool.false_eq_true, false_iff]
      rintro ⟨_, _, _, hns⟩
      exact hns h2
    · simp only [if_neg h1, if_neg h2]
      push_neg at h1
      simp [h1.1, h1.2.1, h1.2.2, h2]

theorem validPair_true_symm (p q : Person) (h : validPair p q = true) :
    validPair q p = true := by
  rcases (validPair_iff p q).mp h with ⟨h1, h2, h3, h4⟩
  refine (validPair_iff q p).mpr ⟨fun hc => h1 hc.symm, h3, h2, ?_⟩
  rintro ⟨hne, heq⟩
  exact h4 ⟨heq ▸ hne, heq.symm⟩

theorem validPair_symm (p q : Person) : validPair p q = validPair q p := by
  cases hpq : validPair p q <;> cases hqp : validPair q p
  · rfl
  · exact absurd (validPair_true_symm q p hqp) (by simp [hpq])
  · exact absurd (validPair_true_symm p q hpq) (by simp [hqp])
  · rfl

theorem graphVals_ne_self (config : Config) (a b : ID)
    (h : b ∈ graphVals config a) : b ≠ a := by
  rcases (mem_graphVals config a b).mp h with ⟨p, _, hpa, q, _, hv, hqb⟩
  have := ((validPair_iff p q).mp hv).1
  rw [← hpa, ← hqb]
  exact fun hc => this hc.symm

theorem graphVals_symm (config : Config) (a b : ID) :
    b ∈ graphVals config a ↔ a ∈ graphVals config b := by
  rw [mem_graphVals, mem_graphVals]
  constructor
  · rintro ⟨p, hp, hpa, q, hq, hv, hqb⟩
    exact ⟨q, hq, hqb, p, hp, validPair_true_symm p q hv, hpa⟩
  · rintro ⟨p, hp, hpb, q, hq, hv, hqa⟩
    exact ⟨q, hq, hqa, p, hp, validPair_true_symm p q hv, hpb⟩

/-! ## Matcher lemmas -/

theorem containsID_iff (l : List ID) (x : ID) : containsID l x = true ↔ x ∈ l := by
  simp [containsID]

theorem findPartner_mem (claimed cands : List ID) (c : ID)
    (h : findPartner claimed cands = some c) : c ∈ cands ∧ c ∉ claimed := by
  induction cands with
  | nil => simp [findPartner] at h
  | cons d rest ih =>
    simp only [findPartner] at h
    by_cases hd : containsID claimed d = true
    · rw [if_pos hd] at h
      rcases ih h with ⟨h1, h2⟩
      exact ⟨List.mem_cons_of_mem _ h1, h2⟩
    · rw [if_neg hd] at h
      obtain rfl := Option.some_inj.mp h
      refine ⟨List.mem_cons_self _ _, ?_⟩
      intro hc
      exact hd ((containsID_iff claimed d).mpr hc)

theorem ordered_sub (i : ID) (valid : List ID) (hist : History) (c : ID)
    (h : c ∈ getOrderedPossiblePairings i valid hist) : c ∈ valid := by
  unfold getOrderedPossiblePairings at h
  rcases List.mem_append.mp h with h1 | h1
  · exact (List.mem_filter.mp h1).1
  · exact (containsID_iff valid c).mp (List.mem_filter.mp h1).2

theorem pairPeopleAux_mem (hist : History) (g : List (ID × List ID)) :
    ∀ claimed a b, (a, b) ∈ pairPeopleAux hist g claimed →
      a ∉ claimed ∧ b ∉ claimed ∧
        ∃ l, (a, l) ∈ g ∧ b ∈ getOrderedPossiblePairings a l hist := by
  induction g with
  | nil =>
    intro claimed a b h
    simp [pairPeopleAux] at h
  | cons e rest ih =>
    intro claimed a b h
    obtain ⟨i, valid⟩ := e
    simp only [pairPeopleAux] at h
    by_cases hi : containsID claimed i = true
    · rw [if_pos hi] at h
      rcases ih claimed a b h with ⟨h1, h2, l, h3, h4⟩
      exact ⟨h1, h2, l, List.mem_cons_of_mem _ h3, h4⟩
    · rw [if_neg hi] at h
      cases hfp : findPartner claimed (getOrderedPossiblePairings i valid hist) with
      | none =>
        rw [hfp] at h
        rcases ih claimed a b h with ⟨h1, h2, l, h3, h4⟩
        exact ⟨h1, h2, l, List.mem_cons_of_mem _ h3, h4⟩
      | some c =>
        rw [hfp] at h
        rcases List.mem_cons.mp h with heq | htail
        · have h1 : a = i := congrArg Prod.fst heq
          have h2 : b = c := congrArg Prod.snd heq
          subst h1
          subst h2
          rcases findPartner_mem claimed _ b hfp with ⟨hc1, hc2⟩
          exact ⟨fun hmem => hi ((containsID_iff claimed a).mpr hmem), hc2, valid,
            List.mem_cons_self _ _, hc1⟩
        · rcases ih _ a b htail with ⟨h1, h2, l, h3, h4⟩
          exact ⟨fun hc => h1 (List.mem_append.mpr (Or.inl hc)),
            fun hc => h2 (List.mem_append.mpr (Or.inl hc)), l,
            List.mem_cons_of_mem _ h3, h4⟩

theorem pairPeopleAux_ids (hist : History) (g : List (ID × List ID))
    (hg : ∀ e ∈ g, e.1 ∉ e.2) :
    ∀ claimed, (allIDs (pairPeopleAux hist g claimed)).Nodup ∧
      ∀ x ∈ allIDs (pairPeopleAux hist g claimed), x ∉ claimed := by
  induction g with
  | nil =>
    intro claimed
    simp [pairPeopleAux, allIDs]
  | cons e rest ih =>
    intro claimed
    obtain ⟨i, valid⟩ := e
    have hgrest : ∀ e ∈ rest, e.1 ∉ e.2 := fun e he => hg e (List.mem_cons_of_mem _ he)
    simp only [pairPeopleAux]
    by_cases hi : containsID claimed i = true
    · rw [if_pos hi]
      exact ih hgrest claimed
    · rw [if_neg hi]
      cases hfp : findPartner claimed (getOrderedPossiblePairings i valid hist) with
      | none => exact ih hgrest claimed
      | some c =>
        rcases findPartner_mem claimed _ c hfp with ⟨hc1, hc2⟩
        have hcv : c ∈ valid := ordered_sub i valid hist c hc1
        have hic : i ≠ c := by
          intro hceq
          exact hg (i, valid) (List.mem_cons_self _ _) (hceq ▸ hcv)
        rcases ih hgrest (claimed ++ [i, c]) with ⟨hnd, hdisj⟩
        constructor
        · simp only [allIDs]
          refine List.nodup_cons.mpr ⟨?_, List.nodup_cons.mpr ⟨?_, hnd⟩⟩
          · intro hmem
            rcases List.mem_cons.mp hmem with heq | hmem2
            · exact hic heq
            · exact hdisj i hmem2 (List.mem_append.mpr (Or.inr (by simp)))
          · intro hmem
            exact hdisj c hmem (List.mem_append.mpr (Or.inr (by simp)))
        · intro x hx
          simp only [allIDs] at hx
          rcases List.mem_cons.mp hx with rfl | hx
          · exact fun hcl => hi ((containsID_iff claimed x).mpr hcl)
          rcases List.mem_cons.mp hx with rfl | hx
          · exact hc2
          · exact fun hcl => hdisj x hx (List.mem_append.mpr (Or.inl hcl))

theorem dvp_no_self (config : Config) :
    ∀ e ∈ determineValidPairings config, e.1 ∉ e.2 := by
  intro e he
  obtain ⟨a, l⟩ := e
  have hl := graph_entry_eq config a l he
  intro hmem
  rw [hl] at hmem
  exact graphVals_ne_self config a a hmem rfl

theorem find?_id_of_nodup (l : List Person) (hnd : (l.map Person.id).Nodup)
    (p : Person) (hp : p ∈ l) :
    l.find? (fun q => decide (q.id = p.id)) = some p := by
  induction l with
  | nil => simp at hp
  | cons r rest ih =>
    rcases List.mem_cons.mp hp with rfl | hp2
    · simp [List.find?]
    · have hr : ¬(r.id = p.id) := by
        intro hc
        have hmem : p.id ∈ rest.map Person.id := List.mem_map.mpr ⟨p, hp2, rfl⟩
        exact (List.nodup_cons.mp hnd).1 (hc ▸ hmem)
      rw [List.find?_cons_of_neg _ (by simp [hr])]
      exact ih (List.nodup_cons.mp hnd).2 hp2

theorem GetPerson_of_mem (config : Config) (hids : config.uniqueIDs) (p : Person)
    (hp : p ∈ config.people) : config.GetPerson p.id = some p :=
  find?_id_of_nodup config.people hids p hp

/-! ## Eligibility-filter lemmas -/

theorem getIneligibleAux_spec (conf : Config) (tv : Bool) (keys : List ID)
    (hres : ∀ i ∈ keys, ∃ p, conf.GetPerson i = some p ∧
      (p.cadence = CadenceOneWeek ∨ p.cadence = CadenceTwoWeeks ∨ p.cadence = "")) :
    ∃ inel, getIneligibleAux conf tv keys = some inel ∧
      ∀ x, x ∈ inel ↔ x ∈ keys ∧ ∃ p, conf.GetPerson x = some p ∧
        p.cadence = CadenceTwoWeeks ∧ tv = false := by
  induction keys with
  | nil => exact ⟨[], rfl, by simp⟩
  | cons i rest ih =>
    obtain ⟨p, hp, hcad⟩ := hres i (List.mem_cons_self _ _)
    obtain ⟨inel, hrec, hiff⟩ := ih (fun j hj => hres j (List.mem_cons_of_mem _ hj))
    rcases hcad with h1 | h1 | h1
    · refine ⟨inel, ?_, ?_⟩
      · simp only [getIneligibleAux, hp]
        rw [if_pos (Or.inl h1), hrec]
      · intro x
        rw [hiff x]
        constructor
        · rintro ⟨hx, hex⟩
          exact ⟨List.mem_cons_of_mem _ hx, hex⟩
        · rintro ⟨hx, p2, hp2, htw, htv⟩
          rcases List.mem_cons.mp hx with rfl | hx2
          · rw [hp] at hp2
            obtain rfl := Option.some_inj.mp hp2
            rw [h1] at htw
            exact absurd htw (by decide)
          · exact ⟨hx2, p2, hp2, htw, htv⟩
    · have hne1 : ¬(p.cadence = CadenceOneWeek ∨ p.cadence = "") := by
        rw [h1]
        rintro (hc | hc) <;> exact absurd hc (by decide)
      rcases Bool.eq_false_or_eq_true tv with htv | htv
      · subst htv
        refine ⟨inel, ?_, ?_⟩
        · simp only [getIneligibleAux, hp]
          rw [if_neg hne1, if_pos h1, hrec]
          simp
        · intro x
          rw [hiff x]
          constructor
          · rintro ⟨hx, hex⟩
            exact ⟨List.mem_cons_of_mem _ hx, hex⟩
          · rintro ⟨hx, p2, hp2, htw, htv2⟩
            rcases List.mem_cons.mp hx with rfl | hx2
            · exact absurd htv2 (by decide)
            · exact ⟨hx2, p2, hp2, htw, htv2⟩
      · subst htv
        refine ⟨i :: inel, ?_, ?_⟩
        · simp only [getIneligibleAux, hp]
          rw [if_neg hne1, if_pos h1, hrec]
          simp
        · intro x
          constructor
          · intro hx
            rcases List.mem_cons.mp hx with rfl | hx2
            · exact ⟨List.mem_cons_self _ _, p, hp, h1, rfl⟩
            · rcases (hiff x).mp hx2 with ⟨hxr, hex⟩
              exact ⟨List.mem_cons_of_mem _ hxr, hex⟩
          · rintro ⟨hx, p2, hp2, htw, _⟩
            rcases List.mem_cons.mp hx with rfl | hx2
            · exact List.mem_cons_self _ _
            · exact List.mem_cons_of_mem _ ((hiff x).mpr ⟨hx2, p2, hp2, htw, rfl⟩)
    · refine ⟨inel, ?_, ?_⟩
      · simp only [getIneligibleAux, hp]
        rw [if_pos (Or.inr h1), hrec]
      · intro x
        rw [hiff x]
        constructor
        · rintro ⟨hx, hex⟩
          exact ⟨List.mem_cons_of_mem _ hx, hex⟩
        · rintro ⟨hx, p2, hp2, htw, htv⟩
          rcases List.mem_cons.mp hx with rfl | hx2
          · rw [hp] at hp2
            obtain rfl := Option.some_inj.mp hp2
            rw [h1] at htw
            exact absurd htw (by decide)
          · exact ⟨hx2, p2, hp2, htw, htv⟩

theorem isValidWeek_false_iff (date : Time) :
    isValidWeekForTwoWeekCadence date = false ↔ isoWeek date % 2 = 1 := by
  unfold isValidWeekForTwoWeekCadence
  rcases Int.emod_two_eq (isoWeek date) with h | h <;> simp [h]

/-! ## History-store update lemmas -/

theorem AddMeeting_getPair_left (h : History) (A B : ID) (t : Time) :
    getPair (h.AddMeeting A B t) A B = some t := by
  unfold getPair History.AddMeeting History.addMeetingToPersonsHistory
    History.GetPersonToLastMeetingMap
  by_cases hab : A = B
  · subst hab
    rw [getA_setA_same, Option.getD_some, getA_setA_same]
  · rw [getA_setA_ne _ B A _ hab, getA_setA_same, Option.getD_some, getA_setA_same]

theorem AddMeeting_getPair_right (h : History) (A B : ID) (t : Time) :
    getPair (h.AddMeeting A B t) B A = some t := by
  unfold getPair History.AddMeeting History.addMeetingToPersonsHistory
    History.GetPersonToLastMeetingMap
  rw [getA_setA_same, Option.getD_some, getA_setA_same]

theorem AddMeeting_getPair_frame (h : History) (A B X Y : ID) (t : Time)
    (hne : ¬((X = A ∧ Y = B) ∨ (X = B ∧ Y = A))) :
    getPair (h.AddMeeting A B t) X Y = getPair h X Y := by
  unfold getPair History.AddMeeting History.addMeetingToPersonsHistory
    History.GetPersonToLastMeetingMap
  by_cases hXB : X = B
  · subst hXB
    have hYA : Y ≠ A := fun hc => hne (Or.inr ⟨rfl, hc⟩)
    rw [getA_setA_same, Option.getD_some, getA_setA_ne _ A Y t hYA]
    by_cases hXA : X = A
    · subst hXA
      rw [getA_setA_same, Option.getD_some, getA_setA_ne _ X Y t (fun hc => hne (Or.inl ⟨rfl, hc⟩))]
    · rw [getA_setA_ne _ A X _ (fun hc => hXA hc)]
  · by_cases hXA : X = A
    · subst hXA
      have hYB : Y ≠ B := fun hc => hne (Or.inl ⟨rfl, hc⟩)
      rw [getA_setA_ne _ B X _ hXB, getA_setA_same, Option.getD_some,
        getA_setA_ne _ B Y t hYB]
    · rw [getA_setA_ne _ B X _ hXB, getA_setA_ne _ A X _ hXA]

theorem AddMeeting_preserves (h : History) (A B P Q : ID) (t v : Time)
    (hpq : getPair h P Q = some v) :
    (getPair (h.AddMeeting A B t) P Q).isSome = true := by
  by_cases hc : (P = A ∧ Q = B) ∨ (P = B ∧ Q = A)
  · rcases hc with ⟨rfl, rfl⟩ | ⟨rfl, rfl⟩
    · rw [AddMeeting_getPair_left]
      rfl
    · rw [AddMeeting_getPair_right]
      rfl
  · rw [AddMeeting_getPair_frame h A B P Q t hc, hpq]
    rfl

/-! ## Claim theorems for the history store -/

/-- C7: for every history store state, all IDs A and B, and every
timestamp t, immediately after `AddMeeting(A, B, t)` both directed lookups
agree: the partner map of A maps B to t and the partner map of B maps A
to t, as one atomic logical update. -/
theorem addMeeting_history_symmetry (h : History) (A B : ID) (t : Time) :
    getPair (h.AddMeeting A B t) A B = some t ∧
      getPair (h.AddMeeting A B t) B A = some t :=
  ⟨AddMeeting_getPair_left h A B t, AddMeeting_getPair_right h A B t⟩

/-- C8: `AddMeeting(A, B, t)` modifies only the entry for the unordered
pair (A, B): every ordered pair (X, Y) other than (A, B) and (B, A) keeps
its stored last-meeting timestamp, and no previously stored entry (for any
pair) is removed by any `AddMeeting` call. -/
theorem addMeeting_frame_effect (h : History) (A B X Y : ID) (t : Time)
    (hne : ¬((X = A ∧ Y = B) ∨ (X = B ∧ Y = A))) :
    getPair (h.AddMeeting A B t) X Y = getPair h X Y ∧
      ∀ P Q : ID, ∀ v : Time, getPair h P Q = some v →
        (getPair (h.AddMeeting A B t) P Q).isSome = true :=
  ⟨AddMeeting_getPair_frame h A B X Y t hne,
    fun P Q v hv => AddMeeting_preserves h A B P Q t v hv⟩

/-- Witness for C8 at a concrete store and pair. -/
theorem addMeeting_frame_effect_witness :
    getPair ((History.mk [("x", [("y", 5)])]).AddMeeting "a" "b" 3) "x" "y"
        = getPair (History.mk [("x", [("y", 5)])]) "x" "y" ∧
      ∀ P Q : ID, ∀ v : Time,
        getPair (History.mk [("x", [("y", 5)])]) P Q = some v →
          (getPair ((History.mk [("x", [("y", 5)])]).AddMeeting "a" "b" 3) P Q).isSome = true :=
  addMeeting_frame_effect (History.mk [("x", [("y", 5)])]) "a" "b" "x" "y" 3 (by decide)

/-- C10: the history store never validates that the two IDs of a meeting
are distinct: `AddMeeting(A, A, t)` always succeeds (it is a total
operation, also on the zero-value store `⟨[]⟩`) and records A as a partner
of A with last-meeting timestamp t, an ordinary queryable entry. -/
theorem addMeeting_self_meeting (h : History) (A : ID) (t : Time) :
    getPair (h.AddMeeting A A t) A A = some t :=
  AddMeeting_getPair_left h A A t

/-! ## Claim theorems for the matcher -/

/-- C6: for every roster with unique IDs, the valid-pair graph built by
`determineValidPairings` is symmetric: b is in the valid-partner slice of
a iff a is in the valid-partner slice of b, with no separate
symmetrization pass. -/
theorem validPairings_symmetric (config : Config) (hids : config.uniqueIDs) (a b : ID) :
    b ∈ graphVals config a ↔ a ∈ graphVals config b :=
  graphVals_symm config a b

/-- Witness for C6 on a concrete roster. -/
theorem validPairings_symmetric_witness :
    "b" ∈ graphVals exampleConfig2 "a" ↔ "a" ∈ graphVals exampleConfig2 "b" :=
  validPairings_symmetric exampleConfig2 (by decide) "a" "b"

/-- C2: for every roster with unique IDs, every history store, and every
date, in the single Pairing Set returned by one `pairPeople` run on the
graph built from that roster every identifier appears at most once across
all pairs (no initiator or partner twice, no pair with equal
components). -/
theorem pairPeople_no_double_booking (config : Config) (hist : History) (date : Time)
    (hids : config.uniqueIDs) (ps : List (ID × ID))
    (hrun : pairPeople config (determineValidPairings config) hist date = some ps) :
    (allIDs ps).Nodup := by
  unfold pairPeople at hrun
  cases hin : getIneligiblePeople config (determineValidPairings config) date with
  | none =>
    rw [hin] at hrun
    cases hrun
  | some inel =>
    rw [hin] at hrun
    obtain rfl := Option.some_inj.mp hrun
    exact (pairPeopleAux_ids hist _ (dvp_no_self config) inel).1

/-- Witness for C2 on a concrete roster and run. -/
theorem pairPeople_no_double_booking_witness :
    (allIDs [("a", "b")]).Nodup :=
  pairPeople_no_double_booking exampleConfig2 ⟨[]⟩ 0 (by decide) [("a", "b")] (by decide)

/-- C1: every pair produced by `pairPeople` on the graph built by
`determineValidPairings` from a unique-ID roster consists of mutually
valid partners: both IDs resolve in the roster (so an ID only present in
the history store never appears), neither is in the other's deny list,
they do not share a non-empty squad, and they are distinct. -/
theorem pairPeople_pairs_mutually_valid (config : Config) (hist : History) (date : Time)
    (hids : config.uniqueIDs) (ps : List (ID × ID))
    (hrun : pairPeople config (determineValidPairings config) hist date = some ps)
    (a b : ID) (hmem : (a, b) ∈ ps) :
    ∃ pa pb : Person,
      config.GetPerson a = some pa ∧ config.GetPerson b = some pb ∧
        pa.id = a ∧ pb.id = b ∧
        b ∉ pa.denyList ∧ a ∉ pb.denyList ∧
        ¬(pa.squad = pb.squad ∧ pa.squad ≠ "") ∧ a ≠ b := by
  unfold pairPeople at hrun
  cases hin : getIneligiblePeople config (determineValidPairings config) date with
  | none =>
    rw [hin] at hrun
    cases hrun
  | some inel =>
    rw [hin] at hrun
    obtain rfl := Option.some_inj.mp hrun
    obtain ⟨-, -, l, hl, hb⟩ := pairPeopleAux_mem hist _ inel a b hmem
    have hbl : b ∈ l := ordered_sub a l hist b hb
    have hlv : l = graphVals config a := graph_entry_eq config a l hl
    rw [hlv] at hbl
    obtain ⟨p, hp, hpa, q, hq, hv, hqb⟩ := (mem_graphVals config a b).mp hbl
    obtain ⟨h1, h2, h3, h4⟩ := (validPair_iff p q).mp hv
    refine ⟨p, q, ?_, ?_, hpa, hqb, ?_, ?_, ?_, ?_⟩
    · rw [← hpa]
      exact GetPerson_of_mem config hids p hp
    · rw [← hqb]
      exact GetPerson_of_mem config hids q hq
    · exact hqb ▸ h2
    · exact hpa ▸ h3
    · rintro ⟨hsq, hsne⟩
      exact h4 ⟨hsne, hsq⟩
    · rw [← hpa, ← hqb]
      exact h1

/-- Witness for C1 on a concrete roster and run. -/
theorem pairPeople_pairs_mutually_valid_witness :
    ∃ pa pb : Person,
      exampleConfig2.GetPerson "a" = some pa ∧ exampleConfig2.GetPerson "b" = some pb ∧
        pa.id = "a" ∧ pb.id = "b" ∧
        "b" ∉ pa.denyList ∧ "a" ∉ pb.denyList ∧
        ¬(pa.squad = pb.squad ∧ pa.squad ≠ "") ∧ ("a" : ID) ≠ "b" :=
  pairPeople_pairs_mutually_valid exampleConfig2 ⟨[]⟩ 0 (by decide) [("a", "b")]
    (by decide) "a" "b" (by decide)

/-- C5: on a unique-ID roster whose cadences are all weekly, biweekly or
unset and whose graph keys resolve in the roster, the eligibility filter
never holds back weekly/unset people, holds back a biweekly person (with
at least one valid partner) exactly when the ISO week of the date is odd,
and consequently no pair generated on an odd ISO week has a biweekly
member. -/
theorem cadence_enforcement (config : Config) (hist : History) (date : Time)
    (hids : config.uniqueIDs)
    (hcad : ∀ p ∈ config.people,
      p.cadence = CadenceOneWeek ∨ p.cadence = CadenceTwoWeeks ∨ p.cadence = "") :
    ∃ inel, getIneligiblePeople config (determineValidPairings config) date = some inel
      ∧ (∀ p ∈ config.people, (p.cadence = CadenceOneWeek ∨ p.cadence = "") → p.id ∉ inel)
      ∧ (∀ p ∈ config.people, p.cadence = CadenceTwoWeeks →
          p.id ∈ (determineValidPairings config).map Prod.fst →
          (p.id ∈ inel ↔ isoWeek date % 2 = 1))
      ∧ (∀ ps, pairPeople config (determineValidPairings config) hist date = some ps →
          isoWeek date % 2 = 1 →
          ∀ a b, (a, b) ∈ ps → ∀ p ∈ config.people, (p.id = a ∨ p.id = b) →
            p.cadence ≠ CadenceTwoWeeks) := by
  have hres : ∀ i ∈ (determineValidPairings config).map Prod.fst,
      ∃ p, config.GetPerson i = some p ∧
        (p.cadence = CadenceOneWeek ∨ p.cadence = CadenceTwoWeeks ∨ p.cadence = "") := by
    intro i hi
    obtain ⟨p, hp, hpi⟩ := determineValidPairings_keys_sub config i hi
    exact ⟨p, hpi ▸ GetPerson_of_mem config hids p hp, hcad p hp⟩
  obtain ⟨inel, haux, hiff⟩ :=
    getIneligibleAux_spec config (isValidWeekForTwoWeekCadence date)
      ((determineValidPairings config).map Prod.fst) hres
  have hget : getIneligiblePeople config (determineValidPairings config) date = some inel := haux
  have part1 : ∀ p ∈ config.people,
      (p.cadence = CadenceOneWeek ∨ p.cadence = "") → p.id ∉ inel := by
    intro p hp hc hmem
    obtain ⟨-, p2, hp2, htw, -⟩ := (hiff p.id).mp hmem
    have hgp : config.GetPerson p.id = some p := GetPerson_of_mem config hids p hp
    rw [hgp] at hp2
    obtain rfl := Option.some_inj.mp hp2
    rcases hc with h | h <;> rw [h] at htw <;> exact absurd htw (by decide)
  have part2 : ∀ p ∈ config.people, p.cadence = CadenceTwoWeeks →
      p.id ∈ (determineValidPairings config).map Prod.fst →
      (p.id ∈ inel ↔ isoWeek date % 2 = 1) := by
    intro p hp htw hkey
    rw [hiff p.id]
    constructor
    · rintro ⟨-, p2, hp2, -, htv⟩
      exact (isValidWeek_false_iff date).mp htv
    · intro hodd
      exact ⟨hkey, p, GetPerson_of_mem config hids p hp, htw,
        (isValidWeek_false_iff date).mpr hodd⟩
  refine ⟨inel, hget, part1, part2, ?_⟩
  intro ps hrun hodd a b hmem p hp hpab
  intro htwc
  unfold pairPeople at hrun
  rw [hget] at hrun
  obtain rfl := Option.some_inj.mp hrun
  obtain ⟨ha, hb, l, hl, hbo⟩ := pairPeopleAux_mem hist _ inel a b hmem
  have hak : a ∈ (determineValidPairings config).map Prod.fst :=
    List.mem_map.mpr ⟨(a, l), hl, rfl⟩
  have hbl : b ∈ graphVals config a := by
    rw [← graph_entry_eq config a l hl]
    exact ordered_sub a l hist b hbo
  have hbk : b ∈ (determineValidPairings config).map Prod.fst := by
    have hab2 : a ∈ graphVals config b := (graphVals_symm config a b).mp hbl
    exact entryVals_ne_nil_key _ b (List.ne_nil_of_mem hab2)
  rcases hpab with rfl | rfl
  · exact ha ((part2 p hp htwc hak).mpr hodd)
  · exact hb ((part2 p hp htwc hbk).mpr hodd)

/-- Witness for C5 on a concrete roster and an odd-ISO-week date. -/
theorem cadence_enforcement_witness :
    ∃ inel,
      getIneligiblePeople exampleConfigCad (determineValidPairings exampleConfigCad) 0
          = some inel
      ∧ (∀ p ∈ exampleConfigCad.people,
          (p.cadence = CadenceOneWeek ∨ p.cadence = "") → p.id ∉ inel)
      ∧ (∀ p ∈ exampleConfigCad.people, p.cadence = CadenceTwoWeeks →
          p.id ∈ (determineValidPairings exampleConfigCad).map Prod.fst →
          (p.id ∈ inel ↔ isoWeek 0 % 2 = 1))
      ∧ (∀ ps,
          pairPeople exampleConfigCad (determineValidPairings exampleConfigCad) ⟨[]⟩ 0
              = some ps →
          isoWeek 0 % 2 = 1 →
          ∀ a b, (a, b) ∈ ps → ∀ p ∈ exampleConfigCad.people, (p.id = a ∨ p.id = b) →
            p.cadence ≠ CadenceTwoWeeks) :=
  cadence_enforcement exampleConfigCad ⟨[]⟩ 0 (by decide) (by decide)

/-! ## Candidate-order lemmas (C3) -/

theorem getA_isSome_iff {β : Type} (m : List (ID × β)) (a : ID) :
    (getA m a).isSome = true ↔ a ∈ m.map Prod.fst := by
  rw [Option.isSome_iff_ne_none]
  constructor
  · intro h
    by_contra hc
    exact h ((getA_eq_none_iff m a).mpr hc)
  · intro hmem hnone
    exact ((getA_eq_none_iff m a).mp hnone) hmem

/-- C3: the candidate order built for a person is: first, exactly the
valid partners with no recorded meeting with them, in valid-partner-list
order; second, exactly the valid partners with a recorded meeting, in
ascending order of last-meeting timestamp; never anyone outside the
valid-partner list. -/
theorem candidate_order (pid : ID) (valid : List ID) (hist : History) (hwf : hist.WF) :
    ∃ met,
      getOrderedPossiblePairings pid valid hist
          = valid.filter
              (fun v => !(getA (hist.GetPersonToLastMeetingMap pid) v).isSome) ++ met
        ∧ (∀ x, x ∈ met ↔
            x ∈ valid ∧ (getA (hist.GetPersonToLastMeetingMap pid) x).isSome = true)
        ∧ met.Pairwise (fun x y =>
            (getA (hist.GetPersonToLastMeetingMap pid) x).getD 0
              ≤ (getA (hist.GetPersonToLastMeetingMap pid) y).getD 0) := by
  have hnd : ((hist.GetPersonToLastMeetingMap pid).map Prod.fst).Nodup := by
    unfold History.GetPersonToLastMeetingMap
    cases hx : getA hist.data pid with
    | none => simp
    | some l2 =>
      have hm := getA_mem hist.data pid l2 hx
      simpa using hwf.2 (pid, l2) hm
  have hkey : ∀ v, containsID (GetPeopleMetSortedByLastMeeting hist pid) v
      = (getA (hist.GetPersonToLastMeetingMap pid) v).isSome := by
    intro v
    rw [Bool.eq_iff_iff, containsID_iff, mem_getPeopleMet, getA_isSome_iff]
  have hsorted : (GetPeopleMetSortedByLastMeeting hist pid).Pairwise (fun x y =>
      (getA (hist.GetPersonToLastMeetingMap pid) x).getD 0
        ≤ (getA (hist.GetPersonToLastMeetingMap pid) y).getD 0) := by
    rw [getPeopleMet_eq_map, List.pairwise_map]
    refine List.Pairwise.imp_of_mem ?_ (metSortedPairs_sorted hist pid)
    intro e1 e2 he1 he2 hle
    obtain ⟨x1, t1⟩ := e1
    obtain ⟨x2, t2⟩ := e2
    have h1 : getA (hist.GetPersonToLastMeetingMap pid) x1 = some t1 :=
      mem_getA_of_nodup _ x1 t1 hnd ((metSortedPairs_perm hist pid).subset he1)
    have h2 : getA (hist.GetPersonToLastMeetingMap pid) x2 = some t2 :=
      mem_getA_of_nodup _ x2 t2 hnd ((metSortedPairs_perm hist pid).subset he2)
    rw [h1, h2]
    simpa using hle
  refine ⟨(GetPeopleMetSortedByLastMeeting hist pid).filter
      (fun prevID => containsID valid prevID), ?_, ?_, ?_⟩
  · have hstep : getOrderedPossiblePairings pid valid hist
        = valid.filter (fun i => !containsID (GetPeopleMetSortedByLastMeeting hist pid) i)
          ++ (GetPeopleMetSortedByLastMeeting hist pid).filter
              (fun prevID => containsID valid prevID) := rfl
    rw [hstep]
    congr 1
    apply List.filter_congr
    intro v hv
    rw [hkey v]
  · intro x
    rw [List.mem_filter]
    constructor
    · rintro ⟨hp, hc⟩
      refine ⟨(containsID_iff valid x).mp hc, ?_⟩
      rw [← hkey x]
      exact (containsID_iff _ x).mpr hp
    · rintro ⟨hv, hs⟩
      refine ⟨?_, (containsID_iff valid x).mpr hv⟩
      rw [← containsID_iff, hkey x]
      exact hs
  · exact List.Pairwise.filter _ hsorted

/-- Witness for C3 on a concrete history and valid-partner list. -/
theorem candidate_order_witness :
    ∃ met,
      getOrderedPossiblePairings "a" ["b", "d"] (History.mk [("a", [("b", 10), ("c", 4)])])
          = ["b", "d"].filter
              (fun v =>
                !(getA ((History.mk [("a", [("b", 10), ("c", 4)])]).GetPersonToLastMeetingMap
                    "a") v).isSome) ++ met
        ∧ (∀ x, x ∈ met ↔
            x ∈ ["b", "d"]
              ∧ (getA ((History.mk
                  [("a", [("b", 10), ("c", 4)])]).GetPersonToLastMeetingMap "a") x).isSome
                  = true)
        ∧ met.Pairwise (fun x y =>
            (getA ((History.mk
              [("a", [("b", 10), ("c", 4)])]).GetPersonToLastMeetingMap "a") x).getD 0
              ≤ (getA ((History.mk
                [("a", [("b", 10), ("c", 4)])]).GetPersonToLastMeetingMap "a") y).getD 0) :=
  candidate_order "a" ["b", "d"] (History.mk [("a", [("b", 10), ("c", 4)])]) (by decide)

/-! ## Orchestrator lemmas (C9) -/

theorem generateLoop_spec (config : Config) (g : List (ID × List ID)) :
    ∀ (weeks : Nat) (h : History) (d : Time) (out : List Pairings) (fin : History),
      generateLoop config g weeks h d = some (out, fin) →
      out.length = weeks
        ∧ (∀ k, (hk : k < out.length) →
            pairPeople config g (histThrough h d (out.take k)) (d + 7 * (k : Int))
              = some (out.get ⟨k, hk⟩))
        ∧ fin = histThrough h d out := by
  intro weeks
  induction weeks with
  | zero =>
    intro h d out fin hrun
    simp only [generateLoop] at hrun
    have heq := Option.some_inj.mp hrun
    have hout : out = [] := (congrArg Prod.fst heq).symm
    have hfin : fin = h := (congrArg Prod.snd heq).symm
    subst hout
    subst hfin
    refine ⟨rfl, ?_, rfl⟩
    intro k hk
    exact absurd hk (by simp)
  | succ n ih =>
    intro h d out fin hrun
    simp only [generateLoop] at hrun
    cases hps : pairPeople config g h d with
    | none =>
      rw [hps] at hrun
      cases hrun
    | some ps =>
      rw [hps] at hrun
      dsimp only at hrun
      cases hrec : generateLoop config g n (feedWeek h d ps) (d + 7) with
      | none =>
        rw [hrec] at hrun
        cases hrun
      | some pr =>
        obtain ⟨rest, fin2⟩ := pr
        rw [hrec] at hrun
        have heq := Option.some_inj.mp hrun
        have hout : out = ps :: rest := (congrArg Prod.fst heq).symm
        have hfin : fin = fin2 := (congrArg Prod.snd heq).symm
        subst hout
        subst hfin
        obtain ⟨hlen, hks, hfin2⟩ := ih (feedWeek h d ps) (d + 7) rest fin hrec
        refine ⟨by simp [hlen], ?_, ?_⟩
        · intro k hk
          cases k with
          | zero =>
            simpa [histThrough] using hps
          | succ k2 =>
            have hk2 : k2 < rest.length := by simpa using hk
            have hstep := hks k2 hk2
            have harith : d + 7 * ((k2 + 1 : Nat) : Int) = d + 7 + 7 * (k2 : Int) := by
              push_cast
              ring
            simp only [List.take_succ_cons, histThrough, List.get_cons_succ, harith]
            exact hstep
        · simp only [histThrough]
          exact hfin2

/-- C9: one `GeneratePairings` run builds the graph once and, for weeks
k = 0..N-1, produces as k-th Pairing Set the matcher's output at date
now + 7k against the history holding exactly the meetings of weeks
0..k-1; each week's pairs are fed in at its own date before the next week
runs, and the final history is the fold of all weeks. -/
theorem generatePairings_spec (config : Config) (hist : History) (now : Time)
    (weeks : Nat) (out : List Pairings) (fin : History)
    (hrun : GeneratePairings config hist now weeks = some (out, fin)) :
    out.length = weeks
      ∧ (∀ k, (hk : k < out.length) →
          pairPeople config (determineValidPairings config)
              (histThrough hist now (out.take k)) (now + 7 * (k : Int))
            = some (out.get ⟨k, hk⟩))
      ∧ fin = histThrough hist now out :=
  generateLoop_spec config (determineValidPairings config) weeks hist now out fin hrun

/-- Witness for C9: a concrete two-week run. -/
theorem generatePairings_spec_witness :
    ([[("a", "b")], [("a", "b")]] : List Pairings).length = 2
      ∧ (∀ k, (hk : k < ([[("a", "b")], [("a", "b")]] : List Pairings).length) →
          pairPeople exampleConfig2 (determineValidPairings exampleConfig2)
              (histThrough ⟨[]⟩ 0 (([[("a", "b")], [("a", "b")]] : List Pairings).take k))
              (0 + 7 * (k : Int))
            = some (([[("a", "b")], [("a", "b")]] : List Pairings).get ⟨k, hk⟩))
      ∧ History.mk [("a", [("b", 7)]), ("b", [("a", 7)])]
          = histThrough ⟨[]⟩ 0 [[("a", "b")], [("a", "b")]] :=
  generatePairings_spec exampleConfig2 ⟨[]⟩ 0 2 [[("a", "b")], [("a", "b")]]
    (History.mk [("a", [("b", 7)]), ("b", [("a", 7)])]) (by decide)

/-! ## Determinism analysis (C4)

`pairPeople` ranges over the Go map `idToValidPairings`; Go map iteration
order is unspecified and varies between runs.  In the embedding the entry
list carries that order, so the claim "two runs on the same inputs give
the same Pairing Set" becomes: the output is invariant under permutation
of the entry list.  It is not — but for a fixed entry order the run is a
pure function, and it is invariant under the iteration order of the outer
history map. -/

/-- Counterexample to C4: the valid-pair graph of a three-person roster
and a rotation of it are permutations of each other — the same Go map in
two of its possible iteration orders — yet `pairPeople` returns two
different Pairing Sets, so two runs on the same roster, graph, history and
date need not agree. -/
theorem pairPeople_order_sensitive :
    (determineValidPairings exampleConfig3).Perm
        [("c", ["a", "b"]), ("a", ["b", "c"]), ("b", ["a", "c"])]
      ∧ pairPeople exampleConfig3 (determineValidPairings exampleConfig3)
          (History.mk []) 0 = some [("a", "b")]
      ∧ pairPeople exampleConfig3
          [("c", ["a", "b"]), ("a", ["b", "c"]), ("b", ["a", "c"])]
          (History.mk []) 0 = some [("c", "a")]
      ∧ pairPeople exampleConfig3 (determineValidPairings exampleConfig3)
            (History.mk []) 0
          ≠ pairPeople exampleConfig3
            [("c", ["a", "b"]), ("a", ["b", "c"]), ("b", ["a", "c"])]
            (History.mk []) 0 := by
  refine ⟨by decide, by decide, by decide, by decide⟩

theorem getA_perm {β : Type} (l1 l2 : List (ID × β))
    (hk : (l1.map Prod.fst).Nodup) (hperm : l1.Perm l2) (a : ID) :
    getA l1 a = getA l2 a := by
  cases hget : getA l1 a with
  | none =>
    have hnk : a ∉ l1.map Prod.fst := (getA_eq_none_iff l1 a).mp hget
    have hnk2 : a ∉ l2.map Prod.fst := fun hc => hnk ((hperm.map Prod.fst).mem_iff.mpr hc)
    exact ((getA_eq_none_iff l2 a).mpr hnk2).symm
  | some v =>
    have hmem : (a, v) ∈ l2 := hperm.subset (getA_mem l1 a v hget)
    have hk2 : (l2.map Prod.fst).Nodup := ((hperm.map Prod.fst).nodup_iff).mp hk
    exact (mem_getA_of_nodup l2 a v hk2 hmem).symm

theorem getOrdered_congr (h1 h2 : History)
    (hmaps : ∀ i, h1.GetPersonToLastMeetingMap i = h2.GetPersonToLastMeetingMap i)
    (i : ID) (valid : List ID) :
    getOrderedPossiblePairings i valid h1 = getOrderedPossiblePairings i valid h2 := by
  have hm : GetPeopleMetSortedByLastMeeting h1 i = GetPeopleMetSortedByLastMeeting h2 i := by
    unfold GetPeopleMetSortedByLastMeeting
    rw [hmaps i]
  have e1 : getOrderedPossiblePairings i valid h1
      = getPeopleNotMetBefore valid (GetPeopleMetSortedByLastMeeting h1 i)
        ++ (GetPeopleMetSortedByLastMeeting h1 i).filter
            (fun prevID => containsID valid prevID) := rfl
  have e2 : getOrderedPossiblePairings i valid h2
      = getPeopleNotMetBefore valid (GetPeopleMetSortedByLastMeeting h2 i)
        ++ (GetPeopleMetSortedByLastMeeting h2 i).filter
            (fun prevID => containsID valid prevID) := rfl
  rw [e1, e2, hm]

theorem pairPeopleAux_congr (h1 h2 : History)
    (hOrd : ∀ i valid,
      getOrderedPossiblePairings i valid h1 = getOrderedPossiblePairings i valid h2) :
    ∀ (g : List (ID × List ID)) (claimed : List ID),
      pairPeopleAux h1 g claimed = pairPeopleAux h2 g claimed := by
  intro g
  induction g with
  | nil =>
    intro claimed
    rfl
  | cons e rest ih =>
    intro claimed
    obtain ⟨i, valid⟩ := e
    simp only [pairPeopleAux, hOrd i valid]
    by_cases hi : containsID claimed i = true
    · rw [if_pos hi, if_pos hi]
      exact ih claimed
    · rw [if_neg hi, if_neg hi]
      cases findPartner claimed (getOrderedPossiblePairings i valid h2) with
      | none => exact ih claimed
      | some c => exact congrArg _ (ih (claimed ++ [i, c]))

/-- C4 amended: the matcher is deterministic only relative to the
iteration order of the valid-pair-graph map: with the graph's entry order
fixed, `pairPeople` is a pure function of the roster, the graph, the
history contents and the date — in particular its output does not depend
on the iteration order of the outer history map — but (see the
counterexample) different iteration orders of the same graph map can
yield different Pairing Sets, so cross-run reproducibility is not
guaranteed. -/
theorem pairPeople_deterministic_given_order (conf : Config) (g : List (ID × List ID))
    (d : Time) (h1 h2 : History)
    (hk : (h1.data.map Prod.fst).Nodup) (hperm : h1.data.Perm h2.data) :
    pairPeople conf g h1 d = pairPeople conf g h2 d := by
  have hmaps : ∀ i, h1.GetPersonToLastMeetingMap i = h2.GetPersonToLastMeetingMap i := by
    intro i
    unfold History.GetPersonToLastMeetingMap
    rw [getA_perm h1.data h2.data hk hperm i]
  unfold pairPeople
  cases getIneligiblePeople conf g d with
  | none => rfl
  | some inel =>
    exact congrArg some
      (pairPeopleAux_congr h1 h2 (getOrdered_congr h1 h2 hmaps) g inel)

/-- Witness for the amended C4 on two iteration orders of one history map. -/
theorem pairPeople_deterministic_given_order_witness :
    pairPeople exampleConfig2 (determineValidPairings exampleConfig2)
        (History.mk [("x", [("y", 5)]), ("z", [("w", 6)])]) 0
      = pairPeople exampleConfig2 (determineValidPairings exampleConfig2)
        (History.mk [("z", [("w", 6)]), ("x", [("y", 5)])]) 0 :=
  pairPeople_deterministic_given_order exampleConfig2
    (determineValidPairings exampleConfig2) 0
    (History.mk [("x", [("y", 5)]), ("z", [("w", 6)])])
    (History.mk [("z", [("w", 6)]), ("x", [("y", 5)])])
    (by decide) (by decide)
